import Mathlib

/-!
Shallow embedding of the projection-generation core of `cal-previewer`
(`src/app/page.tsx`, classes `STLParser` and `CALProjector`).

JavaScript numbers are modelled as exact rationals (`ℚ`); nested JS arrays
(`number[][][]`, `number[][]`) become nested lists, or index functions where
the source only ever reads them through bounded indices.  `Math.round` is
JavaScript round-half-up, which coincides with Mathlib's `round` on `ℚ`.
`Math.cos`/`Math.sin` are transcendental, so the Radon kernel below receives
the cosine and sine of the rotation angle as explicit rational arguments;
concrete theorems instantiate them at quarter-turn angles, where the values
are exact rationals.
-/

/-- One projection: an angle in degrees paired with the 2D intensity grid
(source type `Projection = { angle: number; data: number[][] }`; `data` is
indexed `data[y][x]`, i.e. outer index = the kernel's `thread.y`). -/
structure Projection where
  angle : ℚ
  data : List (List ℚ)
deriving DecidableEq

/-- A triangle mesh (source type `Mesh = { vertices: number[][]; triangles: number[][] }`);
each vertex is an `[x, y, z]` coordinate triple. -/
structure Mesh where
  vertices : List (ℚ × ℚ × ℚ)
  triangles : List (ℕ × ℕ × ℕ)

/-- `VoxelVolume = number[][][]` from the source, indexed `[z][y][x]`. -/
abbrev VoxelList := List (List (List ℚ))

/-- A voxel volume read through its indices.  This models the packaging of a
`VoxelVolume` by `volume.flat(2)` plus `new Input(flatVolume, [s, s, s])` in
`generateProjections`: inside the GPU kernel, `volume[z][y][x]` reads the flat
buffer at `z·s² + y·s + x`, which for an s×s×s nested list is exactly the
nested entry.  Out-of-range reads are modelled as 0; the kernel's bounds
guard ensures they never happen (proved below). -/
abbrev VoxelFun := ℕ → ℕ → ℕ → ℚ

/-- Read a nested-list volume at `[z][y][x]`, with 0 for out-of-range. -/
def volAt (L : VoxelList) : VoxelFun := fun z y x =>
  ((L.getD z []).getD y []).getD x 0

/-- JS fold `arr.reduce(min)` seeded with `Infinity`: for a non-empty list it
equals folding `min` from the first element; the `0` default is only produced
for `[]`, where every use below is unobservable (no pixel exists to rescale,
no vertex exists to place). -/
def listMin : List ℚ → ℚ
  | [] => 0
  | v :: l => l.foldl min v

/-- JS fold `arr.reduce(max)` seeded with `-Infinity`; see `listMin`. -/
def listMax : List ℚ → ℚ
  | [] => 0
  | v :: l => l.foldl max v

/-- All pixel values of a projection set, in iteration order of
`projections.forEach(proj => proj.data.forEach(row => row.forEach(val => ...)))`. -/
def allVals (ps : List Projection) : List ℚ :=
  ps.flatMap (fun p => p.data.flatten)

/-- The global minimum computed by the first pass of
`CALProjector.normalizeProjections` (`globalMin`, seeded with `Infinity`). -/
def globalMin (ps : List Projection) : ℚ := listMin (allVals ps)

/-- The global maximum computed by the first pass of
`CALProjector.normalizeProjections` (`globalMax`, seeded with `-Infinity`). -/
def globalMax (ps : List Projection) : ℚ := listMax (allVals ps)

/-- `const range = globalMax - globalMin || 1;` — JavaScript `||` replaces a
falsy (`0`) left operand by `1`, i.e. the range is `max - min` unless that
difference is exactly `0`. -/
def rangeOf (ps : List Projection) : ℚ :=
  if globalMax ps - globalMin ps = 0 then 1 else globalMax ps - globalMin ps

/-- `CALProjector.normalizeProjections`: rescale every pixel of every
projection by `Math.round(((val - globalMin) / range) * 255)`, in place
(modelled functionally: the angle is kept, the data replaced). -/
def normalizeProjections (ps : List Projection) : List Projection :=
  ps.map (fun p =>
    { angle := p.angle
      data := p.data.map (fun row =>
        row.map (fun val =>
          ((round (((val - globalMin ps) / rangeOf ps) * 255) : ℤ) : ℚ))) })

/-- Modelled from the spec (for comparison with `normalizeProjections`): the
spec's §4.3 formula `range = max(max - min, 1)` followed by the same rescale
`round((value - min) / range * 255)`. -/
def specNormalizeProjections (ps : List Projection) : List Projection :=
  ps.map (fun p =>
    { angle := p.angle
      data := p.data.map (fun row =>
        row.map (fun val =>
          ((round (((val - globalMin ps) / max (globalMax ps - globalMin ps) 1) * 255) : ℤ) : ℚ))) })

/-- Number of iterations of the ray-march loop
`for (let t = -size * 0.7; t < size * 0.7; t += 0.5)`:
the loop body runs for `k = 0, 1, ...` while `-0.7·size + 0.5·k < 0.7·size`,
i.e. while `k < 2.8·size`, which gives `⌈2.8·size⌉` iterations. -/
def marchCount (size : ℕ) : ℕ := (⌈(2.8 : ℚ) * size⌉).toNat

/-- The trilinear interpolation block of the kernel body in
`CALProjector._createRadonKernel` (corner fetches `c000..c111` indexed by
`(z,y,x)` offsets, then interpolation along x, y, z).  The source floors with
`Math.floor` into plain array indices; here the indices are `ℕ` via
`Int.toNat`, which agrees with the source whenever the coordinates are
nonnegative — guaranteed by the bounds guard in `radonSample`. -/
def radonInterp (vol : VoxelFun) (x y z : ℚ) : ℚ :=
  let x0 := (⌊x⌋).toNat
  let y0 := (⌊y⌋).toNat
  let z0 := (⌊z⌋).toNat
  let dx := x - (x0 : ℚ)
  let dy := y - (y0 : ℚ)
  let dz := z - (z0 : ℚ)
  let c000 := vol z0 y0 x0
  let c100 := vol z0 y0 (x0 + 1)
  let c010 := vol z0 (y0 + 1) x0
  let c110 := vol z0 (y0 + 1) (x0 + 1)
  let c001 := vol (z0 + 1) y0 x0
  let c101 := vol (z0 + 1) y0 (x0 + 1)
  let c011 := vol (z0 + 1) (y0 + 1) x0
  let c111 := vol (z0 + 1) (y0 + 1) (x0 + 1)
  let c00 := c000 * (1 - dx) + c100 * dx
  let c01 := c001 * (1 - dx) + c101 * dx
  let c10 := c010 * (1 - dx) + c110 * dx
  let c11 := c011 * (1 - dx) + c111 * dx
  let c0 := c00 * (1 - dy) + c10 * dy
  let c1 := c01 * (1 - dy) + c11 * dy
  c0 * (1 - dz) + c1 * dz

/-- One ray-march step's contribution to `lineIntegral` at sample position
`(x, y, z)`: the guarded `if (x >= 0 && x < size - 1 && ...)` block of the
kernel, contributing the interpolated sample times the step size `0.5`, and
`0` when the position fails the bounds check. -/
def radonSample (vol : VoxelFun) (size : ℕ) (x y z : ℚ) : ℚ :=
  if 0 ≤ x ∧ x < (size : ℚ) - 1 ∧ 0 ≤ y ∧ y < (size : ℚ) - 1
      ∧ 0 ≤ z ∧ z < (size : ℚ) - 1 then
    radonInterp vol x y z * 0.5
  else 0

/-- The kernel body of `CALProjector._createRadonKernel` for output pixel
`(u, v) = (thread.x, thread.y)`: accumulate `radonSample` over the march
`t = -size·0.7 + 0.5·k`.  `c` and `s` stand for the source's
`Math.cos(theta·π/180)` and `Math.sin(theta·π/180)`. -/
def radonPixel (vol : VoxelFun) (c s : ℚ) (size : ℕ) (u v : ℕ) : ℚ :=
  let center : ℚ := (size : ℚ) / 2
  let uCentered : ℚ := (u : ℚ) - center
  let vCentered : ℚ := (v : ℚ) - center
  ((List.range (marchCount size)).map (fun (k : ℕ) =>
    let t : ℚ := -((size : ℚ) * 0.7) + 0.5 * (k : ℚ)
    radonSample vol size (uCentered * c - t * s + center) (vCentered + center)
      (uCentered * s + t * c + center))).sum

/-- The angle of projection `i` out of `numProjections`:
`const angle = (i / this.numProjections) * 360;`. -/
def projAngle (numProjections i : ℕ) : ℚ := ((i : ℚ) / (numProjections : ℚ)) * 360

/-- The projection list built by the loop in `CALProjector.generateProjections`
before normalization: for each `i < numProjections`, one kernel invocation at
angle `i/numProjections·360`, appended in order.  `dcos`/`dsin` model
`θ ↦ Math.cos(θ·π/180)` and `θ ↦ Math.sin(θ·π/180)`. -/
def rawProjections (dcos dsin : ℚ → ℚ) (size numProjections : ℕ)
    (volume : VoxelList) : List Projection :=
  (List.range numProjections).map (fun i =>
    { angle := projAngle numProjections i
      data := (List.range size).map (fun v =>
        (List.range size).map (fun u =>
          radonPixel (volAt volume) (dcos (projAngle numProjections i))
            (dsin (projAngle numProjections i)) size u v)) })

/-- `CALProjector.generateProjections`: generate all raw projections in angle
order, then normalize the whole set (`this.normalizeProjections()`), and
return it.  The progress callback and the cooperative `setTimeout` yields do
not affect the produced value and are not modelled. -/
def generateProjections (dcos dsin : ℚ → ℚ) (size numProjections : ℕ)
    (volume : VoxelList) : List Projection :=
  normalizeProjections (rawProjections dcos dsin size numProjections volume)

/-- The `"cube"` branch of `CALProjector.createTestModel`: starting from an
all-zero grid, the triple loop sets `model[z][y][x] = 1` exactly for
`Math.floor(start) ≤ z, y, x < Math.floor(end)` where
`cubeSize = size * 0.4`, `start = (size - cubeSize) / 2`, `end = start + cubeSize`. -/
def createTestModelCube (size : ℕ) : VoxelList :=
  let cubeSize : ℚ := (size : ℚ) * 0.4
  let start : ℚ := ((size : ℚ) - cubeSize) / 2
  let stop : ℚ := start + cubeSize
  (List.range size).map (fun (z : ℕ) =>
    (List.range size).map (fun (y : ℕ) =>
      (List.range size).map (fun (x : ℕ) =>
        if ⌊start⌋ ≤ (z : ℤ) ∧ (z : ℤ) < ⌊stop⌋
            ∧ ⌊start⌋ ≤ (y : ℤ) ∧ (y : ℤ) < ⌊stop⌋
            ∧ ⌊start⌋ ≤ (x : ℤ) ∧ (x : ℤ) < ⌊stop⌋ then (1 : ℚ) else 0)))

/-- The cube volume at `N = 64` read as an index function: cell `(z,y,x)` is
occupied iff all three indices lie in `[19, 44)` (proved equal to
`volAt (createTestModelCube 64)` below). -/
def cubeFun : VoxelFun := fun z y x =>
  if 19 ≤ z ∧ z < 44 ∧ 19 ≤ y ∧ y < 44 ∧ 19 ≤ x ∧ x < 44 then 1 else 0

/-- Exact values of `Math.cos(θ·π/180)` at the quarter-turn angles hit by a
4-projection run; other angles (never reached in the concrete scenarios
below) map to 0. -/
def qcos (θ : ℚ) : ℚ :=
  if θ = 0 then 1 else if θ = 90 then 0 else if θ = 180 then -1 else if θ = 270 then 0 else 0

/-- Exact values of `Math.sin(θ·π/180)` at the quarter-turn angles; see `qcos`. -/
def qsin (θ : ℚ) : ℚ :=
  if θ = 0 then 0 else if θ = 90 then 1 else if θ = 180 then 0 else if θ = 270 then -1 else 0

/-- The raw (pre-normalization) projection set of the end-to-end scenario
model=cube, N=64, M=4. -/
def rawCube : List Projection := rawProjections qcos qsin 64 4 (createTestModelCube 64)

/-- The end-to-end scenario model=cube, N=64, M=4: the normalized projection
set produced by the pipeline. -/
def cubeRun : List Projection := generateProjections qcos qsin 64 4 (createTestModelCube 64)

/-- The all-zero `gridSize³` voxel grid
(`Array(gridSize).fill(0).map(() => Array(gridSize).fill(0).map(() => Array(gridSize).fill(0)))`). -/
def zeroGrid (gridSize : ℕ) : VoxelList :=
  List.replicate gridSize (List.replicate gridSize (List.replicate gridSize (0 : ℚ)))

/-- `voxels[z][y][x] = q` on a nested-list grid. -/
def set3 (L : VoxelList) (z y x : ℕ) (q : ℚ) : VoxelList :=
  L.set z ((L.getD z []).set y (((L.getD z []).getD y []).set x q))

/-- The per-vertex body of the placement loop in `STLParser.meshToVoxels`:
transform the vertex into grid space, floor each coordinate, and mark the
cell iff all three floored coordinates lie in `[0, gridSize)`. -/
def placeVertex (gridSize : ℕ) (scale minx miny minz sx sy sz : ℚ)
    (L : VoxelList) (vert : ℚ × ℚ × ℚ) : VoxelList :=
  let x : ℤ := ⌊(vert.1 - minx) * scale + ((gridSize : ℚ) - sx * scale) / 2⌋
  let y : ℤ := ⌊(vert.2.1 - miny) * scale + ((gridSize : ℚ) - sy * scale) / 2⌋
  let z : ℤ := ⌊(vert.2.2 - minz) * scale + ((gridSize : ℚ) - sz * scale) / 2⌋
  if 0 ≤ x ∧ x < (gridSize : ℤ) ∧ 0 ≤ y ∧ y < (gridSize : ℤ)
      ∧ 0 ≤ z ∧ z < (gridSize : ℤ) then
    set3 L z.toNat y.toNat x.toNat 1
  else L

/-- `STLParser.meshToVoxels`: bounding box, uniform scale
`gridSize·0.8 / max(extent)`, then place every vertex.
When every bounding-box extent is zero (which covers the empty mesh), the
JavaScript source computes `scale = ±Infinity` and every transformed
coordinate is `NaN` (for the empty mesh the loop body never runs at all), so
every vertex fails the bounds check and the all-zero grid is returned — that
branch is made explicit here because `ℚ` has no infinities. -/
def meshToVoxels (mesh : Mesh) (gridSize : ℕ) : VoxelList :=
  let xs := mesh.vertices.map (fun vert => vert.1)
  let ys := mesh.vertices.map (fun vert => vert.2.1)
  let zs := mesh.vertices.map (fun vert => vert.2.2)
  let minx := listMin xs
  let miny := listMin ys
  let minz := listMin zs
  let sx := listMax xs - minx
  let sy := listMax ys - miny
  let sz := listMax zs - minz
  let maxExtent := max sx (max sy sz)
  if maxExtent = 0 then zeroGrid gridSize
  else
    mesh.vertices.foldl
      (placeVertex gridSize ((gridSize : ℚ) * 0.8 / maxExtent) minx miny minz sx sy sz)
      (zeroGrid gridSize)

/-- Well-formedness of a voxel grid of side `g`: cubic shape and 0/1 cells. -/
def GridInv (g : ℕ) (L : VoxelList) : Prop :=
  L.length = g ∧ (∀ plane ∈ L, plane.length = g ∧ ∀ row ∈ plane, row.length = g) ∧
    (∀ plane ∈ L, ∀ row ∈ plane, ∀ c ∈ row, c = 0 ∨ c = 1)

/-- A one-projection set whose raw range is fractional (`max - min = 1/10`),
separating `range = max - min || 1` from the spec's `max(max - min, 1)`. -/
def cexSet : List Projection := [⟨0, [[0, 1 / 10]]⟩]

/-- A one-projection set with two distinct raw values 0 and 2. -/
def demoSet : List Projection := [⟨0, [[0, 2]]⟩]

/-! ### Helper lemmas about the JS-style min/max folds -/

theorem foldl_min_le_seed (l : List ℚ) : ∀ a : ℚ, l.foldl min a ≤ a := by
  induction l with
  | nil => intro a; simp
  | cons x l ih =>
    intro a
    calc (x :: l).foldl min a = l.foldl min (min a x) := rfl
    _ ≤ min a x := ih (min a x)
    _ ≤ a := min_le_left a x

theorem foldl_min_le_of_mem (l : List ℚ) :
    ∀ (a x : ℚ), x ∈ l → l.foldl min a ≤ x := by
  induction l with
  | nil => intro a x hx; simp at hx
  | cons y l ih =>
    intro a x hx
    rcases List.mem_cons.1 hx with h | h
    · subst h
      calc (x :: l).foldl min a = l.foldl min (min a x) := rfl
      _ ≤ min a x := foldl_min_le_seed l (min a x)
      _ ≤ x := min_le_right a x
    · exact ih (min a y) x h

theorem foldl_min_eq_or_mem (l : List ℚ) :
    ∀ a : ℚ, l.foldl min a = a ∨ l.foldl min a ∈ l := by
  induction l with
  | nil => intro a; left; rfl
  | cons x l ih =>
    intro a
    rcases ih (min a x) with h | h
    · rcases min_choice a x with h' | h'
      · left; calc (x :: l).foldl min a = min a x := h
        _ = a := h'
      · right
        refine List.mem_cons.2 (Or.inl ?_)
        calc (x :: l).foldl min a = min a x := h
        _ = x := h'
    · right; exact List.mem_cons.2 (Or.inr h)

theorem listMin_le_of_mem {l : List ℚ} {x : ℚ} (hx : x ∈ l) : listMin l ≤ x := by
  cases l with
  | nil => simp at hx
  | cons v l =>
    rcases List.mem_cons.1 hx with h | h
    · subst h; exact foldl_min_le_seed l x
    · exact foldl_min_le_of_mem l v x h

theorem listMin_mem {l : List ℚ} (h : l ≠ []) : listMin l ∈ l := by
  cases l with
  | nil => exact absurd rfl h
  | cons v l =>
    rcases foldl_min_eq_or_mem l v with h' | h'
    · rw [listMin, h']; exact List.mem_cons_self v l
    · exact List.mem_cons.2 (Or.inr (by rw [listMin]; exact h'))

theorem foldl_max_ge_seed (l : List ℚ) : ∀ a : ℚ, a ≤ l.foldl max a := by
  induction l with
  | nil => intro a; simp
  | cons x l ih =>
    intro a
    calc a ≤ max a x := le_max_left a x
    _ ≤ l.foldl max (max a x) := ih (max a x)
    _ = (x :: l).foldl max a := rfl

theorem foldl_max_ge_of_mem (l : List ℚ) :
    ∀ (a x : ℚ), x ∈ l → x ≤ l.foldl max a := by
  induction l with
  | nil => intro a x hx; simp at hx
  | cons y l ih =>
    intro a x hx
    rcases List.mem_cons.1 hx with h | h
    · subst h
      calc x ≤ max a x := le_max_right a x
      _ ≤ l.foldl max (max a x) := foldl_max_ge_seed l (max a x)
      _ = (x :: l).foldl max a := rfl
    · exact ih (max a y) x h

theorem foldl_max_eq_or_mem (l : List ℚ) :
    ∀ a : ℚ, l.foldl max a = a ∨ l.foldl max a ∈ l := by
  induction l with
  | nil => intro a; left; rfl
  | cons x l ih =>
    intro a
    rcases ih (max a x) with h | h
    · rcases max_choice a x with h' | h'
      · left; calc (x :: l).foldl max a = max a x := h
        _ = a := h'
      · right
        refine List.mem_cons.2 (Or.inl ?_)
        calc (x :: l).foldl max a = max a x := h
        _ = x := h'
    · right; exact List.mem_cons.2 (Or.inr h)

theorem le_listMax_of_mem {l : List ℚ} {x : ℚ} (hx : x ∈ l) : x ≤ listMax l := by
  cases l with
  | nil => simp at hx
  | cons v l =>
    rcases List.mem_cons.1 hx with h | h
    · subst h; exact foldl_max_ge_seed l x
    · exact foldl_max_ge_of_mem l v x h

theorem listMax_mem {l : List ℚ} (h : l ≠ []) : listMax l ∈ l := by
  cases l with
  | nil => exact absurd rfl h
  | cons v l =>
    rcases foldl_max_eq_or_mem l v with h' | h'
    · rw [listMax, h']; exact List.mem_cons_self v l
    · exact List.mem_cons.2 (Or.inr (by rw [listMax]; exact h'))

theorem globalMin_le_of_mem {ps : List Projection} {x : ℚ} (hx : x ∈ allVals ps) :
    globalMin ps ≤ x := listMin_le_of_mem hx

theorem le_globalMax_of_mem {ps : List Projection} {x : ℚ} (hx : x ∈ allVals ps) :
    x ≤ globalMax ps := le_listMax_of_mem hx

theorem globalMin_mem {ps : List Projection} (h : allVals ps ≠ []) :
    globalMin ps ∈ allVals ps := listMin_mem h

theorem globalMax_mem {ps : List Projection} (h : allVals ps ≠ []) :
    globalMax ps ∈ allVals ps := listMax_mem h

theorem mem_allVals {ps : List Projection} {p : Projection} {row : List ℚ} {v : ℚ}
    (hp : p ∈ ps) (hr : row ∈ p.data) (hv : v ∈ row) : v ∈ allVals ps := by
  exact List.mem_flatMap.2 ⟨p, hp, List.mem_flatten.2 ⟨row, hr, hv⟩⟩

/-! ### Helper lemmas about `Math.round` (round-half-up on `ℚ`) -/

theorem round_nonneg_of {q : ℚ} (h : 0 ≤ q) : 0 ≤ round q := by
  rw [round_eq]
  exact Int.le_floor.2 (by push_cast; linarith)

theorem round_le_255_of {q : ℚ} (h : q ≤ 255) : round q ≤ 255 := by
  rw [round_eq]
  have h2 : ⌊q + 1 / 2⌋ ≤ ⌊(255 : ℚ) + 1 / 2⌋ := Int.floor_le_floor (by linarith)
  have h3 : ⌊(255 : ℚ) + 1 / 2⌋ = 255 := by
    rw [Int.floor_eq_iff]
    norm_num
  omega

theorem one_le_round_of {q : ℚ} (h : 1 / 2 ≤ q) : 1 ≤ round q := by
  rw [round_eq]
  exact Int.le_floor.2 (by push_cast; linarith)

/-! ### Structure of the Normalizer output -/

theorem flatMap_flatten_map (f : ℚ → ℚ) (ps : List Projection) :
    ((ps.map (fun p => Projection.mk p.angle (p.data.map (fun row => row.map f)))).flatMap
        (fun p => p.data.flatten)) =
      (ps.flatMap (fun p => p.data.flatten)).map f := by
  induction ps with
  | nil => rfl
  | cons p ps ih =>
    simp only [List.map_cons, List.flatMap_cons, List.map_append, ih]
    congr 1
    rw [List.map_flatten]

theorem allVals_normalize (ps : List Projection) :
    allVals (normalizeProjections ps) =
      (allVals ps).map
        (fun v => ((round (((v - globalMin ps) / rangeOf ps) * 255) : ℤ) : ℚ)) := by
  unfold allVals normalizeProjections
  exact flatMap_flatten_map _ ps

theorem normalize_length (ps : List Projection) :
    (normalizeProjections ps).length = ps.length := List.length_map _ _

theorem normalize_getD {ps : List Projection} {k : ℕ} (hk : k < ps.length) :
    (normalizeProjections ps).getD k ⟨0, []⟩ =
      ⟨(ps.getD k ⟨0, []⟩).angle,
        (ps.getD k ⟨0, []⟩).data.map (fun row => row.map
          (fun val => ((round (((val - globalMin ps) / rangeOf ps) * 255) : ℤ) : ℚ)))⟩ := by
  rw [List.getD_eq_getElem _ _ (by rw [normalize_length]; exact hk),
    List.getD_eq_getElem _ _ hk]
  simp [normalizeProjections]

theorem normalize_map_angle (ps : List Projection) :
    (normalizeProjections ps).map (fun p => p.angle) = ps.map (fun p => p.angle) := by
  unfold normalizeProjections
  rw [List.map_map]
  rfl

theorem rangeOf_pos {ps : List Projection} {w : ℚ} (hw : w ∈ allVals ps) :
    0 < rangeOf ps := by
  have h1 := globalMin_le_of_mem hw
  have h2 := le_globalMax_of_mem hw
  rw [rangeOf]
  split
  · norm_num
  · rename_i h
    rcases lt_or_eq_of_le (by linarith : (0 : ℚ) ≤ globalMax ps - globalMin ps) with h' | h'
    · exact h'
    · exact absurd h'.symm h

theorem normalize_val_bounds (ps : List Projection) :
    ∀ w ∈ allVals (normalizeProjections ps), 0 ≤ w ∧ w ≤ 255 := by
  intro w hw
  rw [allVals_normalize] at hw
  obtain ⟨v, hv, rfl⟩ := List.mem_map.1 hw
  have h1 := globalMin_le_of_mem hv
  have h2 := le_globalMax_of_mem hv
  by_cases h : globalMax ps - globalMin ps = 0
  · have hv0 : v - globalMin ps = 0 := by linarith
    rw [hv0, zero_div, zero_mul, round_zero]
    norm_num
  · have hr : rangeOf ps = globalMax ps - globalMin ps := by rw [rangeOf, if_neg h]
    have hrpos : 0 < rangeOf ps := rangeOf_pos hv
    have harg1 : 0 ≤ (v - globalMin ps) / rangeOf ps * 255 :=
      mul_nonneg (div_nonneg (by linarith) hrpos.le) (by norm_num)
    have harg2 : (v - globalMin ps) / rangeOf ps * 255 ≤ 255 := by
      have hd : (v - globalMin ps) / rangeOf ps ≤ 1 := by
        rw [div_le_one hrpos, hr]
        linarith
      nlinarith
    constructor
    · exact_mod_cast round_nonneg_of harg1
    · exact_mod_cast round_le_255_of harg2

theorem marchCount_64 : marchCount 64 = 180 := by
  have h : ⌈(2.8 : ℚ) * ((64 : ℕ) : ℚ)⌉ = 180 := by
    rw [Int.ceil_eq_iff]
    constructor <;> push_cast <;> norm_num
  rw [marchCount, h]
  rfl

/-! ### Bounds and safety of the Radon kernel -/

theorem lerp01 {a b w : ℚ} (ha : 0 ≤ a) (ha' : a ≤ 1) (hb : 0 ≤ b) (hb' : b ≤ 1)
    (hw : 0 ≤ w) (hw' : w ≤ 1) :
    0 ≤ a * (1 - w) + b * w ∧ a * (1 - w) + b * w ≤ 1 :=
  ⟨by nlinarith, by nlinarith⟩

theorem fract_coe_toNat_floor {x : ℚ} (hx : 0 ≤ x) :
    0 ≤ x - ((⌊x⌋.toNat : ℕ) : ℚ) ∧ x - ((⌊x⌋.toNat : ℕ) : ℚ) ≤ 1 := by
  have h0 : (0 : ℤ) ≤ ⌊x⌋ := Int.floor_nonneg.2 hx
  have hcast : ((⌊x⌋.toNat : ℕ) : ℚ) = ((⌊x⌋ : ℤ) : ℚ) := by
    exact_mod_cast Int.toNat_of_nonneg h0
  rw [hcast]
  constructor
  · have := Int.floor_le x
    linarith
  · have := Int.lt_floor_add_one x
    linarith

theorem radonInterp_bounds {vol : VoxelFun}
    (hv : ∀ z y x, 0 ≤ vol z y x ∧ vol z y x ≤ 1)
    {x y z : ℚ} (hx : 0 ≤ x) (hy : 0 ≤ y) (hz : 0 ≤ z) :
    0 ≤ radonInterp vol x y z ∧ radonInterp vol x y z ≤ 1 := by
  obtain ⟨hdx0, hdx1⟩ := fract_coe_toNat_floor hx
  obtain ⟨hdy0, hdy1⟩ := fract_coe_toNat_floor hy
  obtain ⟨hdz0, hdz1⟩ := fract_coe_toNat_floor hz
  unfold radonInterp
  have h00 := lerp01 (hv ⌊z⌋.toNat ⌊y⌋.toNat ⌊x⌋.toNat).1
    (hv ⌊z⌋.toNat ⌊y⌋.toNat ⌊x⌋.toNat).2
    (hv ⌊z⌋.toNat ⌊y⌋.toNat (⌊x⌋.toNat + 1)).1
    (hv ⌊z⌋.toNat ⌊y⌋.toNat (⌊x⌋.toNat + 1)).2 hdx0 hdx1
  have h01 := lerp01 (hv (⌊z⌋.toNat + 1) ⌊y⌋.toNat ⌊x⌋.toNat).1
    (hv (⌊z⌋.toNat + 1) ⌊y⌋.toNat ⌊x⌋.toNat).2
    (hv (⌊z⌋.toNat + 1) ⌊y⌋.toNat (⌊x⌋.toNat + 1)).1
    (hv (⌊z⌋.toNat + 1) ⌊y⌋.toNat (⌊x⌋.toNat + 1)).2 hdx0 hdx1
  have h10 := lerp01 (hv ⌊z⌋.toNat (⌊y⌋.toNat + 1) ⌊x⌋.toNat).1
    (hv ⌊z⌋.toNat (⌊y⌋.toNat + 1) ⌊x⌋.toNat).2
    (hv ⌊z⌋.toNat (⌊y⌋.toNat + 1) (⌊x⌋.toNat + 1)).1
    (hv ⌊z⌋.toNat (⌊y⌋.toNat + 1) (⌊x⌋.toNat + 1)).2 hdx0 hdx1
  have h11 := lerp01 (hv (⌊z⌋.toNat + 1) (⌊y⌋.toNat + 1) ⌊x⌋.toNat).1
    (hv (⌊z⌋.toNat + 1) (⌊y⌋.toNat + 1) ⌊x⌋.toNat).2
    (hv (⌊z⌋.toNat + 1) (⌊y⌋.toNat + 1) (⌊x⌋.toNat + 1)).1
    (hv (⌊z⌋.toNat + 1) (⌊y⌋.toNat + 1) (⌊x⌋.toNat + 1)).2 hdx0 hdx1
  have h0 := lerp01 h00.1 h00.2 h10.1 h10.2 hdy0 hdy1
  have h1 := lerp01 h01.1 h01.2 h11.1 h11.2 hdy0 hdy1
  exact lerp01 h0.1 h0.2 h1.1 h1.2 hdz0 hdz1

theorem radonSample_bounds {vol : VoxelFun}
    (hv : ∀ z y x, 0 ≤ vol z y x ∧ vol z y x ≤ 1) (size : ℕ) (x y z : ℚ) :
    0 ≤ radonSample vol size x y z ∧ radonSample vol size x y z ≤ 1 / 2 := by
  unfold radonSample
  split
  · rename_i hc
    obtain ⟨hx, -, hy, -, hz, -⟩ := hc
    obtain ⟨hi0, hi1⟩ := radonInterp_bounds hv hx hy hz
    constructor <;> nlinarith
  · norm_num

theorem radonPixel_nonneg {vol : VoxelFun}
    (hv : ∀ z y x, 0 ≤ vol z y x ∧ vol z y x ≤ 1) (c s : ℚ) (size u v : ℕ) :
    0 ≤ radonPixel vol c s size u v := by
  unfold radonPixel
  apply List.sum_nonneg
  intro w hw
  obtain ⟨k, -, rfl⟩ := List.mem_map.1 hw
  exact (radonSample_bounds hv size _ _ _).1

theorem radonPixel_le {vol : VoxelFun}
    (hv : ∀ z y x, 0 ≤ vol z y x ∧ vol z y x ≤ 1) (c s : ℚ) (size u v : ℕ) :
    radonPixel vol c s size u v ≤ (marchCount size : ℚ) * (1 / 2) := by
  unfold radonPixel
  dsimp only
  refine le_trans (List.sum_le_card_nsmul _ (1 / 2 : ℚ) ?_) ?_
  · intro w hw
    obtain ⟨k, -, rfl⟩ := List.mem_map.1 hw
    exact (radonSample_bounds hv size _ _ _).2
  · rw [List.length_map, List.length_range, nsmul_eq_mul]

theorem marchCount_half_le (size : ℕ) :
    (marchCount size : ℚ) * (1 / 2) ≤ 1.4 * (size : ℚ) + 0.5 := by
  have h0 : (0 : ℤ) ≤ ⌈(2.8 : ℚ) * (size : ℚ)⌉ :=
    Int.ceil_nonneg (by positivity)
  have hcast : ((marchCount size : ℕ) : ℚ) = ((⌈(2.8 : ℚ) * (size : ℚ)⌉ : ℤ) : ℚ) := by
    rw [marchCount]
    exact_mod_cast Int.toNat_of_nonneg h0
  have hlt : ((⌈(2.8 : ℚ) * (size : ℚ)⌉ : ℤ) : ℚ) < 2.8 * (size : ℚ) + 1 :=
    Int.ceil_lt_add_one _
  rw [hcast]
  nlinarith

theorem radonPixel_zero_vol (c s : ℚ) (size u v : ℕ) :
    radonPixel (fun _ _ _ => 0) c s size u v = 0 := by
  unfold radonPixel
  dsimp only
  apply List.sum_eq_zero
  intro w hw
  obtain ⟨k, -, rfl⟩ := List.mem_map.1 hw
  unfold radonSample
  split
  · unfold radonInterp
    dsimp only
    ring
  · rfl

theorem getD_mem {α : Type} {l : List α} {n : ℕ} (d : α) (h : n < l.length) :
    l.getD n d ∈ l := by
  rw [List.getD_eq_getElem _ _ h]
  exact List.getElem_mem h

/-! ### The cube test model -/

theorem floor_cube_start : ⌊(((64 : ℕ) : ℚ) - ((64 : ℕ) : ℚ) * 0.4) / 2⌋ = 19 := by
  rw [Int.floor_eq_iff]
  push_cast
  norm_num

theorem floor_cube_stop :
    ⌊(((64 : ℕ) : ℚ) - ((64 : ℕ) : ℚ) * 0.4) / 2 + ((64 : ℕ) : ℚ) * 0.4⌋ = 44 := by
  rw [Int.floor_eq_iff]
  push_cast
  norm_num

theorem volAt_cube : volAt (createTestModelCube 64) = cubeFun := by
  funext z y x
  unfold volAt createTestModelCube cubeFun
  dsimp only
  by_cases hz : z < 64
  · by_cases hy : y < 64
    · by_cases hx : x < 64
      · simp only [List.getD_eq_getElem?_getD, List.getElem?_map,
          List.getElem?_range hz, List.getElem?_range hy, List.getElem?_range hx,
          Option.map_some', Option.getD_some]
        rw [floor_cube_start, floor_cube_stop]
        by_cases hcond : 19 ≤ z ∧ z < 44 ∧ 19 ≤ y ∧ y < 44 ∧ 19 ≤ x ∧ x < 44
        · rw [if_pos (by omega), if_pos hcond]
        · rw [if_neg (by omega), if_neg hcond]
      · have hxnone : (List.range 64)[x]? = none :=
          List.getElem?_eq_none (by simpa using not_lt.1 hx)
        simp only [List.getD_eq_getElem?_getD, List.getElem?_map,
          List.getElem?_range hz, List.getElem?_range hy,
          Option.map_some', Option.getD_some, hxnone, Option.map_none', Option.getD_none]
        rw [if_neg (by omega)]
    · have hynone : (List.range 64)[y]? = none :=
        List.getElem?_eq_none (by simpa using not_lt.1 hy)
      simp only [List.getD_eq_getElem?_getD, List.getElem?_map,
        List.getElem?_range hz, Option.map_some', Option.getD_some,
        hynone, Option.map_none', Option.getD_none, List.getElem?_nil]
      rw [if_neg (by omega)]
  · have hznone : (List.range 64)[z]? = none :=
      List.getElem?_eq_none (by simpa using not_lt.1 hz)
    simp only [List.getD_eq_getElem?_getD, List.getElem?_map, hznone,
      Option.map_none', Option.getD_none, List.getElem?_nil]
    rw [if_neg (by omega)]

theorem cubeFun_bounds : ∀ z y x, 0 ≤ cubeFun z y x ∧ cubeFun z y x ≤ 1 := by
  intro z y x
  unfold cubeFun
  split <;> norm_num

/-! ### Structure of the raw projection list -/

theorem rawProjections_length (dcos dsin : ℚ → ℚ) (size M : ℕ) (vol : VoxelList) :
    (rawProjections dcos dsin size M vol).length = M := by
  simp [rawProjections]

theorem rawProjections_getD {dcos dsin : ℚ → ℚ} {size M : ℕ} {vol : VoxelList}
    {i : ℕ} (hi : i < M) :
    (rawProjections dcos dsin size M vol).getD i ⟨0, []⟩ =
      ⟨projAngle M i, (List.range size).map (fun v => (List.range size).map (fun u =>
        radonPixel (volAt vol) (dcos (projAngle M i)) (dsin (projAngle M i)) size u v))⟩ := by
  unfold rawProjections
  rw [List.getD_eq_getElem _ _ (by simpa using hi), List.getElem_map, List.getElem_range]

theorem rawProjections_entry {dcos dsin : ℚ → ℚ} {size M : ℕ} {vol : VoxelList}
    {i v u : ℕ} (hi : i < M) (hv : v < size) (hu : u < size) :
    ((((rawProjections dcos dsin size M vol).getD i ⟨0, []⟩).data.getD v []).getD u 0) =
      radonPixel (volAt vol) (dcos (projAngle M i)) (dsin (projAngle M i)) size u v := by
  rw [rawProjections_getD hi]
  dsimp only
  simp only [List.getD_eq_getElem?_getD, List.getElem?_map,
    List.getElem?_range hv, List.getElem?_range hu, Option.map_some', Option.getD_some]

theorem rawProjections_entry_mem {dcos dsin : ℚ → ℚ} {size M : ℕ} {vol : VoxelList}
    {i v u : ℕ} (hi : i < M) (hv : v < size) (hu : u < size) :
    radonPixel (volAt vol) (dcos (projAngle M i)) (dsin (projAngle M i)) size u v ∈
      allVals (rawProjections dcos dsin size M vol) := by
  rw [← rawProjections_entry hi hv hu]
  have hplen : i < (rawProjections dcos dsin size M vol).length := by
    rw [rawProjections_length]; exact hi
  have hdlen : v < ((rawProjections dcos dsin size M vol).getD i ⟨0, []⟩).data.length := by
    rw [rawProjections_getD hi]
    simpa using hv
  have hrlen : u < (((rawProjections dcos dsin size M vol).getD i ⟨0, []⟩).data.getD v []).length := by
    rw [rawProjections_getD hi]
    dsimp only
    simp only [List.getD_eq_getElem?_getD, List.getElem?_map,
      List.getElem?_range hv, Option.map_some', Option.getD_some]
    simpa using hu
  exact mem_allVals (getD_mem _ hplen) (getD_mem _ hdlen) (getD_mem _ hrlen)

theorem allVals_rawProjections_bound {dcos dsin : ℚ → ℚ} {size M : ℕ} {vol : VoxelList}
    (hvol : ∀ z y x, 0 ≤ volAt vol z y x ∧ volAt vol z y x ≤ 1) :
    ∀ w ∈ allVals (rawProjections dcos dsin size M vol),
      0 ≤ w ∧ w ≤ (marchCount size : ℚ) * (1 / 2) := by
  intro w hw
  obtain ⟨p, hp, hw2⟩ := List.mem_flatMap.1 hw
  obtain ⟨row, hrow, hwv⟩ := List.mem_flatten.1 hw2
  unfold rawProjections at hp
  obtain ⟨i, -, rfl⟩ := List.mem_map.1 hp
  dsimp only at hrow
  obtain ⟨v, -, rfl⟩ := List.mem_map.1 hrow
  obtain ⟨u, -, rfl⟩ := List.mem_map.1 hwv
  exact ⟨radonPixel_nonneg hvol _ _ _ _ _, radonPixel_le hvol _ _ _ _ _⟩

/-! ### Concrete facts about the cube scenario (N = 64, M = 4) -/

theorem projAngle_4_0 : projAngle 4 0 = 0 := by unfold projAngle; push_cast; norm_num

theorem projAngle_4_1 : projAngle 4 1 = 90 := by unfold projAngle; push_cast; norm_num

theorem projAngle_4_2 : projAngle 4 2 = 180 := by unfold projAngle; push_cast; norm_num

theorem projAngle_4_3 : projAngle 4 3 = 270 := by unfold projAngle; push_cast; norm_num

theorem qcos_0 : qcos 0 = 1 := by unfold qcos; rw [if_pos rfl]

theorem qsin_0 : qsin 0 = 0 := by unfold qsin; rw [if_pos rfl]

theorem qcos_90 : qcos 90 = 0 := by
  unfold qcos; rw [if_neg (by norm_num), if_pos rfl]

theorem qsin_90 : qsin 90 = 1 := by
  unfold qsin; rw [if_neg (by norm_num), if_pos rfl]

theorem qcos_180 : qcos 180 = -1 := by
  unfold qcos; rw [if_neg (by norm_num), if_neg (by norm_num), if_pos rfl]

theorem qsin_180 : qsin 180 = 0 := by
  unfold qsin; rw [if_neg (by norm_num), if_neg (by norm_num), if_pos rfl]

theorem qcos_270 : qcos 270 = 0 := by
  unfold qcos
  rw [if_neg (by norm_num), if_neg (by norm_num), if_neg (by norm_num), if_pos rfl]

theorem qsin_270 : qsin 270 = -1 := by
  unfold qsin
  rw [if_neg (by norm_num), if_neg (by norm_num), if_neg (by norm_num), if_pos rfl]

theorem cubeFun_x45 (a b : ℕ) : cubeFun a b 45 = 0 := by
  unfold cubeFun; rw [if_neg (by omega)]

theorem cubeFun_x46 (a b : ℕ) : cubeFun a b (45 + 1) = 0 := by
  unfold cubeFun; rw [if_neg (by omega)]

/-- At 180 degrees the kernel maps output column `u` to volume column `64 - u`;
for `u = 19` that is column 45, which lies outside the cube, so every march
sample reads only zero cells. -/
theorem radonSample_cube_x45 (y z : ℚ) : radonSample cubeFun 64 45 y z = 0 := by
  unfold radonSample
  split
  · unfold radonInterp
    dsimp only
    have h45 : (⌊(45 : ℚ)⌋).toNat = 45 := by
      rw [show (45 : ℚ) = ((45 : ℕ) : ℚ) by norm_num, Int.floor_natCast]
      rfl
    rw [h45]
    simp only [cubeFun_x45, cubeFun_x46]
    ring
  · rfl

theorem radonPixel_cube_180_19_30 : radonPixel cubeFun (-1) 0 64 19 30 = 0 := by
  unfold radonPixel
  dsimp only
  apply List.sum_eq_zero
  intro w hw
  obtain ⟨k, -, rfl⟩ := List.mem_map.1 hw
  rw [show (((19 : ℕ) : ℚ) - ((64 : ℕ) : ℚ) / 2) * (-1) -
      (-(((64 : ℕ) : ℚ) * 0.7) + 0.5 * (k : ℚ)) * 0 + ((64 : ℕ) : ℚ) / 2 = 45 from by
    push_cast; ring]
  exact radonSample_cube_x45 _ _

/-- A march sample whose position lies strictly inside the cube (all floored
coordinates and their successors in `[19, 44)`) reads eight occupied cells, so
the interpolated value is 1 and the contribution is the step size 0.5. -/
theorem radonSample_cube_one {x y z : ℚ} (hx0 : 19 ≤ x) (hx1 : x < 43)
    (hy0 : 19 ≤ y) (hy1 : y < 43) (hz0 : 19 ≤ z) (hz1 : z < 43) :
    radonSample cubeFun 64 x y z = 1 / 2 := by
  have hfx : 19 ≤ ⌊x⌋.toNat ∧ ⌊x⌋.toNat < 43 := by
    have h1 : (19 : ℤ) ≤ ⌊x⌋ := Int.le_floor.2 (by push_cast; linarith)
    have h2 : ⌊x⌋ < 43 := Int.floor_lt.2 (by push_cast; linarith)
    omega
  have hfy : 19 ≤ ⌊y⌋.toNat ∧ ⌊y⌋.toNat < 43 := by
    have h1 : (19 : ℤ) ≤ ⌊y⌋ := Int.le_floor.2 (by push_cast; linarith)
    have h2 : ⌊y⌋ < 43 := Int.floor_lt.2 (by push_cast; linarith)
    omega
  have hfz : 19 ≤ ⌊z⌋.toNat ∧ ⌊z⌋.toNat < 43 := by
    have h1 : (19 : ℤ) ≤ ⌊z⌋ := Int.le_floor.2 (by push_cast; linarith)
    have h2 : ⌊z⌋ < 43 := Int.floor_lt.2 (by push_cast; linarith)
    omega
  unfold radonSample
  rw [if_pos ⟨by linarith, by push_cast; linarith, by linarith, by push_cast; linarith,
    by linarith, by push_cast; linarith⟩]
  unfold radonInterp
  dsimp only
  have hc000 : cubeFun ⌊z⌋.toNat ⌊y⌋.toNat ⌊x⌋.toNat = 1 := by
    unfold cubeFun; rw [if_pos (by omega)]
  have hc100 : cubeFun ⌊z⌋.toNat ⌊y⌋.toNat (⌊x⌋.toNat + 1) = 1 := by
    unfold cubeFun; rw [if_pos (by omega)]
  have hc010 : cubeFun ⌊z⌋.toNat (⌊y⌋.toNat + 1) ⌊x⌋.toNat = 1 := by
    unfold cubeFun; rw [if_pos (by omega)]
  have hc110 : cubeFun ⌊z⌋.toNat (⌊y⌋.toNat + 1) (⌊x⌋.toNat + 1) = 1 := by
    unfold cubeFun; rw [if_pos (by omega)]
  have hc001 : cubeFun (⌊z⌋.toNat + 1) ⌊y⌋.toNat ⌊x⌋.toNat = 1 := by
    unfold cubeFun; rw [if_pos (by omega)]
  have hc101 : cubeFun (⌊z⌋.toNat + 1) ⌊y⌋.toNat (⌊x⌋.toNat + 1) = 1 := by
    unfold cubeFun; rw [if_pos (by omega)]
  have hc011 : cubeFun (⌊z⌋.toNat + 1) (⌊y⌋.toNat + 1) ⌊x⌋.toNat = 1 := by
    unfold cubeFun; rw [if_pos (by omega)]
  have hc111 : cubeFun (⌊z⌋.toNat + 1) (⌊y⌋.toNat + 1) (⌊x⌋.toNat + 1) = 1 := by
    unfold cubeFun; rw [if_pos (by omega)]
  rw [hc000, hc100, hc010, hc110, hc001, hc101, hc011, hc111]
  ring

/-- One in-range march step bounds the whole accumulated pixel from below
(all other contributions are nonnegative). -/
theorem radonPixel_ge_sample {vol : VoxelFun}
    (hv : ∀ z y x, 0 ≤ vol z y x ∧ vol z y x ≤ 1)
    (c s : ℚ) (size u v k : ℕ) (hk : k < marchCount size) :
    radonSample vol size
        (((u : ℚ) - (size : ℚ) / 2) * c -
          (-((size : ℚ) * 0.7) + 0.5 * (k : ℚ)) * s + (size : ℚ) / 2)
        (((v : ℚ) - (size : ℚ) / 2) + (size : ℚ) / 2)
        (((u : ℚ) - (size : ℚ) / 2) * s +
          (-((size : ℚ) * 0.7) + 0.5 * (k : ℚ)) * c + (size : ℚ) / 2) ≤
      radonPixel vol c s size u v := by
  unfold radonPixel
  dsimp only
  refine List.single_le_sum ?_ _ ?_
  · intro w hw
    obtain ⟨k', -, rfl⟩ := List.mem_map.1 hw
    exact (radonSample_bounds hv size _ _ _).1
  · exact List.mem_map.2 ⟨k, List.mem_range.2 hk, rfl⟩

theorem raw_ge_0_19_30 : 1 / 2 ≤ radonPixel cubeFun 1 0 64 19 30 := by
  have h := radonPixel_ge_sample cubeFun_bounds 1 0 64 19 30 86 (by rw [marchCount_64]; omega)
  rw [show (((19 : ℕ) : ℚ) - ((64 : ℕ) : ℚ) / 2) * 1 -
      (-(((64 : ℕ) : ℚ) * 0.7) + 0.5 * ((86 : ℕ) : ℚ)) * 0 + ((64 : ℕ) : ℚ) / 2 = 19 from by
    push_cast; norm_num] at h
  rw [show (((30 : ℕ) : ℚ) - ((64 : ℕ) : ℚ) / 2) + ((64 : ℕ) : ℚ) / 2 = 30 from by
    push_cast; norm_num] at h
  rw [show (((19 : ℕ) : ℚ) - ((64 : ℕ) : ℚ) / 2) * 0 +
      (-(((64 : ℕ) : ℚ) * 0.7) + 0.5 * ((86 : ℕ) : ℚ)) * 1 + ((64 : ℕ) : ℚ) / 2 = 151 / 5 from by
    push_cast; norm_num] at h
  rwa [radonSample_cube_one (by norm_num) (by norm_num) (by norm_num) (by norm_num)
    (by norm_num) (by norm_num)] at h

theorem raw_ge_0_30_30 : 1 / 2 ≤ radonPixel cubeFun 1 0 64 30 30 := by
  have h := radonPixel_ge_sample cubeFun_bounds 1 0 64 30 30 86 (by rw [marchCount_64]; omega)
  rw [show (((30 : ℕ) : ℚ) - ((64 : ℕ) : ℚ) / 2) * 1 -
      (-(((64 : ℕ) : ℚ) * 0.7) + 0.5 * ((86 : ℕ) : ℚ)) * 0 + ((64 : ℕ) : ℚ) / 2 = 30 from by
    push_cast; norm_num] at h
  rw [show (((30 : ℕ) : ℚ) - ((64 : ℕ) : ℚ) / 2) + ((64 : ℕ) : ℚ) / 2 = 30 from by
    push_cast; norm_num] at h
  rw [show (((30 : ℕ) : ℚ) - ((64 : ℕ) : ℚ) / 2) * 0 +
      (-(((64 : ℕ) : ℚ) * 0.7) + 0.5 * ((86 : ℕ) : ℚ)) * 1 + ((64 : ℕ) : ℚ) / 2 = 151 / 5 from by
    push_cast; norm_num] at h
  rwa [radonSample_cube_one (by norm_num) (by norm_num) (by norm_num) (by norm_num)
    (by norm_num) (by norm_num)] at h

theorem raw_ge_90_30_30 : 1 / 2 ≤ radonPixel cubeFun 0 1 64 30 30 := by
  have h := radonPixel_ge_sample cubeFun_bounds 0 1 64 30 30 86 (by rw [marchCount_64]; omega)
  rw [show (((30 : ℕ) : ℚ) - ((64 : ℕ) : ℚ) / 2) * 0 -
      (-(((64 : ℕ) : ℚ) * 0.7) + 0.5 * ((86 : ℕ) : ℚ)) * 1 + ((64 : ℕ) : ℚ) / 2 = 169 / 5 from by
    push_cast; norm_num] at h
  rw [show (((30 : ℕ) : ℚ) - ((64 : ℕ) : ℚ) / 2) + ((64 : ℕ) : ℚ) / 2 = 30 from by
    push_cast; norm_num] at h
  rw [show (((30 : ℕ) : ℚ) - ((64 : ℕ) : ℚ) / 2) * 1 +
      (-(((64 : ℕ) : ℚ) * 0.7) + 0.5 * ((86 : ℕ) : ℚ)) * 0 + ((64 : ℕ) : ℚ) / 2 = 30 from by
    push_cast; norm_num] at h
  rwa [radonSample_cube_one (by norm_num) (by norm_num) (by norm_num) (by norm_num)
    (by norm_num) (by norm_num)] at h

theorem raw_ge_180_30_30 : 1 / 2 ≤ radonPixel cubeFun (-1) 0 64 30 30 := by
  have h := radonPixel_ge_sample cubeFun_bounds (-1) 0 64 30 30 86 (by rw [marchCount_64]; omega)
  rw [show (((30 : ℕ) : ℚ) - ((64 : ℕ) : ℚ) / 2) * (-1) -
      (-(((64 : ℕ) : ℚ) * 0.7) + 0.5 * ((86 : ℕ) : ℚ)) * 0 + ((64 : ℕ) : ℚ) / 2 = 34 from by
    push_cast; norm_num] at h
  rw [show (((30 : ℕ) : ℚ) - ((64 : ℕ) : ℚ) / 2) + ((64 : ℕ) : ℚ) / 2 = 30 from by
    push_cast; norm_num] at h
  rw [show (((30 : ℕ) : ℚ) - ((64 : ℕ) : ℚ) / 2) * 0 +
      (-(((64 : ℕ) : ℚ) * 0.7) + 0.5 * ((86 : ℕ) : ℚ)) * (-1) + ((64 : ℕ) : ℚ) / 2 = 169 / 5 from by
    push_cast; norm_num] at h
  rwa [radonSample_cube_one (by norm_num) (by norm_num) (by norm_num) (by norm_num)
    (by norm_num) (by norm_num)] at h

theorem raw_ge_270_30_30 : 1 / 2 ≤ radonPixel cubeFun 0 (-1) 64 30 30 := by
  have h := radonPixel_ge_sample cubeFun_bounds 0 (-1) 64 30 30 86 (by rw [marchCount_64]; omega)
  rw [show (((30 : ℕ) : ℚ) - ((64 : ℕ) : ℚ) / 2) * 0 -
      (-(((64 : ℕ) : ℚ) * 0.7) + 0.5 * ((86 : ℕ) : ℚ)) * (-1) + ((64 : ℕ) : ℚ) / 2 = 151 / 5 from by
    push_cast; norm_num] at h
  rw [show (((30 : ℕ) : ℚ) - ((64 : ℕ) : ℚ) / 2) + ((64 : ℕ) : ℚ) / 2 = 30 from by
    push_cast; norm_num] at h
  rw [show (((30 : ℕ) : ℚ) - ((64 : ℕ) : ℚ) / 2) * (-1) +
      (-(((64 : ℕ) : ℚ) * 0.7) + 0.5 * ((86 : ℕ) : ℚ)) * 0 + ((64 : ℕ) : ℚ) / 2 = 34 from by
    push_cast; norm_num] at h
  rwa [radonSample_cube_one (by norm_num) (by norm_num) (by norm_num) (by norm_num)
    (by norm_num) (by norm_num)] at h

theorem volAt_cube_bounds :
    ∀ z y x, 0 ≤ volAt (createTestModelCube 64) z y x ∧
      volAt (createTestModelCube 64) z y x ≤ 1 := by
  rw [volAt_cube]
  exact cubeFun_bounds

theorem rawCube_length : rawCube.length = 4 :=
  rawProjections_length qcos qsin 64 4 (createTestModelCube 64)

theorem mem_rawCube_0_19_30 : radonPixel cubeFun 1 0 64 19 30 ∈ allVals rawCube := by
  have h := @rawProjections_entry_mem qcos qsin 64 4 (createTestModelCube 64) 0 30 19
    (by norm_num) (by norm_num) (by norm_num)
  rw [volAt_cube, projAngle_4_0, qcos_0, qsin_0] at h
  exact h

theorem mem_rawCube_180_19_30 : (0 : ℚ) ∈ allVals rawCube := by
  have h := @rawProjections_entry_mem qcos qsin 64 4 (createTestModelCube 64) 2 30 19
    (by norm_num) (by norm_num) (by norm_num)
  rw [volAt_cube, projAngle_4_2, qcos_180, qsin_180, radonPixel_cube_180_19_30] at h
  exact h

theorem mem_rawCube_0_30_30 : radonPixel cubeFun 1 0 64 30 30 ∈ allVals rawCube := by
  have h := @rawProjections_entry_mem qcos qsin 64 4 (createTestModelCube 64) 0 30 30
    (by norm_num) (by norm_num) (by norm_num)
  rw [volAt_cube, projAngle_4_0, qcos_0, qsin_0] at h
  exact h

theorem mem_rawCube_90_30_30 : radonPixel cubeFun 0 1 64 30 30 ∈ allVals rawCube := by
  have h := @rawProjections_entry_mem qcos qsin 64 4 (createTestModelCube 64) 1 30 30
    (by norm_num) (by norm_num) (by norm_num)
  rw [volAt_cube, projAngle_4_1, qcos_90, qsin_90] at h
  exact h

theorem mem_rawCube_180_30_30 : radonPixel cubeFun (-1) 0 64 30 30 ∈ allVals rawCube := by
  have h := @rawProjections_entry_mem qcos qsin 64 4 (createTestModelCube 64) 2 30 30
    (by norm_num) (by norm_num) (by norm_num)
  rw [volAt_cube, projAngle_4_2, qcos_180, qsin_180] at h
  exact h

theorem mem_rawCube_270_30_30 : radonPixel cubeFun 0 (-1) 64 30 30 ∈ allVals rawCube := by
  have h := @rawProjections_entry_mem qcos qsin 64 4 (createTestModelCube 64) 3 30 30
    (by norm_num) (by norm_num) (by norm_num)
  rw [volAt_cube, projAngle_4_3, qcos_270, qsin_270] at h
  exact h

theorem globalMin_rawCube : globalMin rawCube = 0 := by
  have hne : allVals rawCube ≠ [] := List.ne_nil_of_mem mem_rawCube_180_19_30
  have h1 : globalMin rawCube ≤ 0 := globalMin_le_of_mem mem_rawCube_180_19_30
  have h2 : 0 ≤ globalMin rawCube :=
    (allVals_rawProjections_bound volAt_cube_bounds _ (globalMin_mem hne)).1
  linarith

theorem globalMax_rawCube_ge : 1 / 2 ≤ globalMax rawCube :=
  le_trans raw_ge_0_19_30 (le_globalMax_of_mem mem_rawCube_0_19_30)

theorem globalMax_rawCube_le : globalMax rawCube ≤ 90 := by
  have hne : allVals rawCube ≠ [] := List.ne_nil_of_mem mem_rawCube_0_19_30
  have h : globalMax rawCube ≤ (marchCount 64 : ℚ) * (1 / 2) :=
    (allVals_rawProjections_bound volAt_cube_bounds _ (globalMax_mem hne)).2
  rw [marchCount_64] at h
  push_cast at h
  linarith

theorem rangeOf_rawCube : rangeOf rawCube = globalMax rawCube := by
  unfold rangeOf
  rw [globalMin_rawCube, sub_zero,
    if_neg (by have := globalMax_rawCube_ge; intro hc; rw [hc] at this; linarith)]

theorem cubeRun_entry {k i j : ℕ} (hk : k < 4) (hi : i < 64) (hj : j < 64) :
    (((cubeRun.getD k ⟨0, []⟩).data.getD i []).getD j 0) =
      ((round (((radonPixel cubeFun (qcos (projAngle 4 k)) (qsin (projAngle 4 k)) 64 j i
        - globalMin rawCube) / rangeOf rawCube) * 255) : ℤ) : ℚ) := by
  rw [show cubeRun = normalizeProjections rawCube from rfl]
  rw [normalize_getD (by rw [rawCube_length]; exact hk)]
  dsimp only
  rw [show rawCube.getD k ⟨0, []⟩ =
      ⟨projAngle 4 k, (List.range 64).map (fun v => (List.range 64).map (fun u =>
        radonPixel (volAt (createTestModelCube 64)) (qcos (projAngle 4 k))
          (qsin (projAngle 4 k)) 64 u v))⟩ from rawProjections_getD hk]
  dsimp only
  simp only [List.getD_eq_getElem?_getD, List.getElem?_map, List.getElem?_range hi,
    List.getElem?_range hj, Option.map_some', Option.getD_some]
  rw [volAt_cube]

theorem norm_entry_pos {P : ℚ} (hP : 1 / 2 ≤ P) :
    1 ≤ ((round (((P - globalMin rawCube) / rangeOf rawCube) * 255) : ℤ) : ℚ) := by
  have hg0 : (0 : ℚ) < globalMax rawCube := lt_of_lt_of_le (by norm_num) globalMax_rawCube_ge
  rw [globalMin_rawCube, rangeOf_rawCube, sub_zero]
  have h90 := globalMax_rawCube_le
  have harg : 1 / 2 ≤ P / globalMax rawCube * 255 := by
    rw [div_mul_eq_mul_div, le_div_iff₀ hg0]
    nlinarith
  exact_mod_cast one_le_round_of harg

theorem cubeRun_data_0_30_19_pos :
    1 ≤ (((cubeRun.getD 0 ⟨0, []⟩).data.getD 30 []).getD 19 0) := by
  rw [cubeRun_entry (by norm_num) (by norm_num) (by norm_num),
    projAngle_4_0, qcos_0, qsin_0]
  exact norm_entry_pos raw_ge_0_19_30

theorem cubeRun_data_2_30_19_zero :
    (((cubeRun.getD 2 ⟨0, []⟩).data.getD 30 []).getD 19 0) = 0 := by
  rw [cubeRun_entry (by norm_num) (by norm_num) (by norm_num),
    projAngle_4_2, qcos_180, qsin_180, radonPixel_cube_180_19_30, globalMin_rawCube,
    sub_zero, zero_div, zero_mul, round_zero]
  norm_num

theorem cubeRun_data_30_30_pos {k : ℕ} (hk : k < 4) :
    1 ≤ (((cubeRun.getD k ⟨0, []⟩).data.getD 30 []).getD 30 0) := by
  rw [cubeRun_entry hk (by norm_num) (by norm_num)]
  interval_cases k
  · rw [projAngle_4_0, qcos_0, qsin_0]
    exact norm_entry_pos raw_ge_0_30_30
  · rw [projAngle_4_1, qcos_90, qsin_90]
    exact norm_entry_pos raw_ge_90_30_30
  · rw [projAngle_4_2, qcos_180, qsin_180]
    exact norm_entry_pos raw_ge_180_30_30
  · rw [projAngle_4_3, qcos_270, qsin_270]
    exact norm_entry_pos raw_ge_270_30_30

theorem cubeRun_length : cubeRun.length = 4 := by
  rw [show cubeRun = normalizeProjections rawCube from rfl, normalize_length, rawCube_length]

theorem cubeRun_map_angle : cubeRun.map (fun p => p.angle) = [0, 90, 180, 270] := by
  rw [show cubeRun = normalizeProjections rawCube from rfl, normalize_map_angle]
  show (rawProjections qcos qsin 64 4 (createTestModelCube 64)).map (fun p => p.angle) = _
  unfold rawProjections
  rw [List.map_map]
  rw [show List.range 4 = [0, 1, 2, 3] from rfl]
  simp only [List.map_cons, List.map_nil, Function.comp]
  rw [projAngle_4_0, projAngle_4_1, projAngle_4_2, projAngle_4_3]

theorem cubeRun_data_shape {k : ℕ} (hk : k < 4) :
    (cubeRun.getD k ⟨0, []⟩).data.length = 64 ∧
      ∀ row ∈ (cubeRun.getD k ⟨0, []⟩).data, row.length = 64 := by
  rw [show cubeRun = normalizeProjections rawCube from rfl]
  rw [normalize_getD (by rw [rawCube_length]; exact hk)]
  dsimp only
  rw [show rawCube.getD k ⟨0, []⟩ =
      ⟨projAngle 4 k, (List.range 64).map (fun v => (List.range 64).map (fun u =>
        radonPixel (volAt (createTestModelCube 64)) (qcos (projAngle 4 k))
          (qsin (projAngle 4 k)) 64 u v))⟩ from rawProjections_getD hk]
  dsimp only
  constructor
  · simp
  · intro row hrow
    rw [List.map_map] at hrow
    obtain ⟨v, -, rfl⟩ := List.mem_map.1 hrow
    simp

theorem radonSample_congr {vol vol' : VoxelFun} {size : ℕ}
    (h : ∀ z y x, z < size → y < size → x < size → vol z y x = vol' z y x)
    (x y z : ℚ) : radonSample vol size x y z = radonSample vol' size x y z := by
  unfold radonSample
  by_cases hc : 0 ≤ x ∧ x < (size : ℚ) - 1 ∧ 0 ≤ y ∧ y < (size : ℚ) - 1
      ∧ 0 ≤ z ∧ z < (size : ℚ) - 1
  · rw [if_pos hc, if_pos hc]
    obtain ⟨hx0, hx1, hy0, hy1, hz0, hz1⟩ := hc
    have hxi : ⌊x⌋.toNat + 1 < size := by
      have h1 : (0 : ℤ) ≤ ⌊x⌋ := Int.floor_nonneg.2 hx0
      have h2 : (⌊x⌋ : ℚ) ≤ x := Int.floor_le x
      have h3 : (⌊x⌋ : ℚ) < (size : ℚ) - 1 := lt_of_le_of_lt h2 hx1
      have h4 : ⌊x⌋ < (size : ℤ) - 1 := by exact_mod_cast (by push_cast; linarith : (⌊x⌋ : ℚ) < ((size : ℤ) : ℚ) - 1)
      omega
    have hyi : ⌊y⌋.toNat + 1 < size := by
      have h1 : (0 : ℤ) ≤ ⌊y⌋ := Int.floor_nonneg.2 hy0
      have h2 : (⌊y⌋ : ℚ) ≤ y := Int.floor_le y
      have h3 : (⌊y⌋ : ℚ) < (size : ℚ) - 1 := lt_of_le_of_lt h2 hy1
      have h4 : ⌊y⌋ < (size : ℤ) - 1 := by exact_mod_cast (by push_cast; linarith : (⌊y⌋ : ℚ) < ((size : ℤ) : ℚ) - 1)
      omega
    have hzi : ⌊z⌋.toNat + 1 < size := by
      have h1 : (0 : ℤ) ≤ ⌊z⌋ := Int.floor_nonneg.2 hz0
      have h2 : (⌊z⌋ : ℚ) ≤ z := Int.floor_le z
      have h3 : (⌊z⌋ : ℚ) < (size : ℚ) - 1 := lt_of_le_of_lt h2 hz1
      have h4 : ⌊z⌋ < (size : ℤ) - 1 := by exact_mod_cast (by push_cast; linarith : (⌊z⌋ : ℚ) < ((size : ℤ) : ℚ) - 1)
      omega
    have e1 := h ⌊z⌋.toNat ⌊y⌋.toNat ⌊x⌋.toNat (by omega) (by omega) (by omega)
    have e2 := h ⌊z⌋.toNat ⌊y⌋.toNat (⌊x⌋.toNat + 1) (by omega) (by omega) hxi
    have e3 := h ⌊z⌋.toNat (⌊y⌋.toNat + 1) ⌊x⌋.toNat (by omega) hyi (by omega)
    have e4 := h ⌊z⌋.toNat (⌊y⌋.toNat + 1) (⌊x⌋.toNat + 1) (by omega) hyi hxi
    have e5 := h (⌊z⌋.toNat + 1) ⌊y⌋.toNat ⌊x⌋.toNat hzi (by omega) (by omega)
    have e6 := h (⌊z⌋.toNat + 1) ⌊y⌋.toNat (⌊x⌋.toNat + 1) hzi (by omega) hxi
    have e7 := h (⌊z⌋.toNat + 1) (⌊y⌋.toNat + 1) ⌊x⌋.toNat hzi hyi (by omega)
    have e8 := h (⌊z⌋.toNat + 1) (⌊y⌋.toNat + 1) (⌊x⌋.toNat + 1) hzi hyi hxi
    unfold radonInterp
    dsimp only
    rw [e1, e2, e3, e4, e5, e6, e7, e8]
  · rw [if_neg hc, if_neg hc]

theorem radonPixel_congr {vol vol' : VoxelFun} {size : ℕ}
    (h : ∀ z y x, z < size → y < size → x < size → vol z y x = vol' z y x)
    (c s : ℚ) (u v : ℕ) :
    radonPixel vol c s size u v = radonPixel vol' c s size u v := by
  unfold radonPixel
  refine congrArg List.sum (List.map_congr_left ?_)
  intro k _
  exact radonSample_congr h _ _ _

/-! ### Voxelizer well-formedness helpers -/

theorem gridInv_zero (g : ℕ) : GridInv g (zeroGrid g) := by
  unfold GridInv zeroGrid
  refine ⟨List.length_replicate _ _, ?_, ?_⟩
  · intro plane hplane
    rw [List.eq_of_mem_replicate hplane]
    refine ⟨List.length_replicate _ _, ?_⟩
    intro row hrow
    rw [List.eq_of_mem_replicate hrow]
    exact List.length_replicate _ _
  · intro plane hplane row hrow c hc
    rw [List.eq_of_mem_replicate hplane] at hrow
    rw [List.eq_of_mem_replicate hrow] at hc
    left
    exact List.eq_of_mem_replicate hc

theorem gridInv_set3 {g : ℕ} {L : VoxelList} (hL : GridInv g L) {z y x : ℕ}
    (hz : z < g) (hy : y < g) : GridInv g (set3 L z y x 1) := by
  obtain ⟨hlen, hshape, hcells⟩ := hL
  have hzL : z < L.length := by rw [hlen]; exact hz
  have hplane0 : L.getD z [] ∈ L := getD_mem _ hzL
  have hplane0shape := hshape _ hplane0
  have hyP : y < (L.getD z []).length := by rw [hplane0shape.1]; exact hy
  have hrow0 : (L.getD z []).getD y [] ∈ L.getD z [] := getD_mem _ hyP
  have hrow0len : ((L.getD z []).getD y []).length = g := hplane0shape.2 _ hrow0
  unfold set3
  refine ⟨?_, ?_, ?_⟩
  · rw [List.length_set]
    exact hlen
  · intro plane hplane
    rcases List.mem_or_eq_of_mem_set hplane with h | h
    · exact hshape _ h
    · subst h
      constructor
      · rw [List.length_set]
        exact hplane0shape.1
      · intro row hrow
        rcases List.mem_or_eq_of_mem_set hrow with h2 | h2
        · exact hplane0shape.2 _ h2
        · subst h2
          rw [List.length_set]
          exact hrow0len
  · intro plane hplane row hrow c hc
    rcases List.mem_or_eq_of_mem_set hplane with h | h
    · exact hcells _ h _ hrow _ hc
    · subst h
      rcases List.mem_or_eq_of_mem_set hrow with h2 | h2
      · exact hcells _ hplane0 _ h2 _ hc
      · subst h2
        rcases List.mem_or_eq_of_mem_set hc with h3 | h3
        · exact hcells _ hplane0 _ hrow0 _ h3
        · right
          exact h3

theorem gridInv_place {g : ℕ} (scale minx miny minz sx sy sz : ℚ) {L : VoxelList}
    (hL : GridInv g L) (vert : ℚ × ℚ × ℚ) :
    GridInv g (placeVertex g scale minx miny minz sx sy sz L vert) := by
  unfold placeVertex
  dsimp only
  split
  · rename_i hcond
    exact gridInv_set3 hL (by omega) (by omega)
  · exact hL

theorem gridInv_foldl {g : ℕ} (scale minx miny minz sx sy sz : ℚ)
    (verts : List (ℚ × ℚ × ℚ)) :
    ∀ L : VoxelList, GridInv g L →
      GridInv g (verts.foldl (placeVertex g scale minx miny minz sx sy sz) L) := by
  induction verts with
  | nil => intro L hL; exact hL
  | cons vert verts ih =>
    intro L hL
    exact ih _ (gridInv_place scale minx miny minz sx sy sz hL vert)

theorem gridInv_meshToVoxels (mesh : Mesh) (g : ℕ) : GridInv g (meshToVoxels mesh g) := by
  unfold meshToVoxels
  dsimp only
  split
  · exact gridInv_zero g
  · exact gridInv_foldl _ _ _ _ _ _ _ mesh.vertices (zeroGrid g) (gridInv_zero g)

/-! ### Claim theorems -/

/-- C4: the claim says a degenerate mesh (zero vertices, or zero bounding-box
extent on every axis) must fail with an `InvalidMeshError`.  The code has no
such error anywhere: for the empty mesh the bounding box stays at
`±Infinity`, `scale` becomes `-0`, and the placement loop never runs; for a
single-vertex mesh `scale` is `Infinity` and every transformed coordinate is
`NaN`, failing the bounds check.  Either way `meshToVoxels` silently returns
the all-zero occupancy grid — exactly what the claim forbids. -/
theorem meshToVoxels_degenerate_silent_zero :
    meshToVoxels ⟨[], []⟩ 4 = zeroGrid 4 ∧
    meshToVoxels ⟨[(1, 2, 3)], []⟩ 4 = zeroGrid 4 := by
  constructor
  · unfold meshToVoxels
    dsimp only [List.map_nil]
    rw [if_pos (by show max (listMax [] - listMin []) _ = 0; norm_num [listMax, listMin])]
  · unfold meshToVoxels
    dsimp only [List.map_cons, List.map_nil]
    rw [if_pos]
    show max (listMax [(1 : ℚ)] - listMin [(1 : ℚ)])
        (max (listMax [(2 : ℚ)] - listMin [(2 : ℚ)]) (listMax [(3 : ℚ)] - listMin [(3 : ℚ)])) = 0
    show max ((1 : ℚ) - 1) (max ((2 : ℚ) - 2) ((3 : ℚ) - 3)) = 0
    norm_num

/-- C10: `meshToVoxels` is total over all meshes (including degenerate ones):
it always returns a `gridSize × gridSize × gridSize` grid whose cells are all
0 or 1, and a vertex whose transformed, floored coordinate falls outside
`[0, gridSize)` on any axis leaves the grid untouched (so no out-of-bounds
write ever occurs). -/
theorem meshToVoxels_total_safe (mesh : Mesh) (g : ℕ) :
    ((meshToVoxels mesh g).length = g ∧
      (∀ plane ∈ meshToVoxels mesh g, plane.length = g ∧
        ∀ row ∈ plane, row.length = g) ∧
      (∀ plane ∈ meshToVoxels mesh g, ∀ row ∈ plane, ∀ c ∈ row, c = 0 ∨ c = 1)) ∧
    (∀ (scale minx miny minz sx sy sz : ℚ) (L : VoxelList) (vert : ℚ × ℚ × ℚ),
      ¬(0 ≤ ⌊(vert.1 - minx) * scale + ((g : ℚ) - sx * scale) / 2⌋ ∧
          ⌊(vert.1 - minx) * scale + ((g : ℚ) - sx * scale) / 2⌋ < (g : ℤ) ∧
          0 ≤ ⌊(vert.2.1 - miny) * scale + ((g : ℚ) - sy * scale) / 2⌋ ∧
          ⌊(vert.2.1 - miny) * scale + ((g : ℚ) - sy * scale) / 2⌋ < (g : ℤ) ∧
          0 ≤ ⌊(vert.2.2 - minz) * scale + ((g : ℚ) - sz * scale) / 2⌋ ∧
          ⌊(vert.2.2 - minz) * scale + ((g : ℚ) - sz * scale) / 2⌋ < (g : ℤ)) →
      placeVertex g scale minx miny minz sx sy sz L vert = L) := by
  constructor
  · exact gridInv_meshToVoxels mesh g
  · intro scale minx miny minz sx sy sz L vert hcond
    unfold placeVertex
    dsimp only
    rw [if_neg hcond]

/-- C10 (witness): concrete instance — the 2³ voxelization of a two-vertex
mesh is a 2×2×2 grid, and a vertex mapping outside the grid is skipped. -/
theorem meshToVoxels_total_safe_witness :
    (meshToVoxels ⟨[(0, 0, 0), (1, 1, 1)], []⟩ 2).length = 2 ∧
    placeVertex 2 1 0 0 0 0 0 0 (zeroGrid 2) (5, 0, 0) = zeroGrid 2 := by
  constructor
  · exact (meshToVoxels_total_safe ⟨[(0, 0, 0), (1, 1, 1)], []⟩ 2).1.1
  · refine (meshToVoxels_total_safe ⟨[], []⟩ 2).2 1 0 0 0 0 0 0 (zeroGrid 2) (5, 0, 0) ?_
    intro hc
    have h1 := hc.1
    have h2 := hc.2.1
    rw [show ((5, (0 : ℚ), (0 : ℚ)).1 - 0) * 1 + (((2 : ℕ) : ℚ) - 0 * 1) / 2 = 6 from by
      push_cast; norm_num] at h2
    rw [show ((6 : ℚ)) = ((6 : ℕ) : ℚ) from by norm_num, Int.floor_natCast] at h2
    omega

/-- C6: a ray-march sample whose position has any coordinate outside
`[0, N-1)` contributes exactly 0 to the accumulated sum; the kernel never
reads the grid outside `[0, N)` (its value only depends on cells with all
indices below `N`); and projecting an all-zero volume yields an all-zero raw
projection for every angle (every cosine/sine pair). -/
theorem radon_out_of_bounds_safety :
    (∀ (vol : VoxelFun) (size : ℕ) (x y z : ℚ),
      ¬(0 ≤ x ∧ x < (size : ℚ) - 1 ∧ 0 ≤ y ∧ y < (size : ℚ) - 1
          ∧ 0 ≤ z ∧ z < (size : ℚ) - 1) →
      radonSample vol size x y z = 0) ∧
    (∀ (vol vol' : VoxelFun) (size : ℕ) (c s : ℚ) (u v : ℕ),
      (∀ z y x, z < size → y < size → x < size → vol z y x = vol' z y x) →
      radonPixel vol c s size u v = radonPixel vol' c s size u v) ∧
    (∀ (c s : ℚ) (size u v : ℕ), radonPixel (fun _ _ _ => 0) c s size u v = 0) := by
  refine ⟨?_, ?_, radonPixel_zero_vol⟩
  · intro vol size x y z h
    unfold radonSample
    rw [if_neg h]
  · intro vol vol' size c s u v h
    exact radonPixel_congr h c s u v

/-- C6 (witness): an out-of-bounds sample position contributes 0 on a
volume of all ones, and the all-zero volume projects to 0 at a pixel. -/
theorem radon_out_of_bounds_safety_witness :
    radonSample (fun _ _ _ => 1) 4 (-1) 0 0 = 0 ∧
    radonPixel (fun _ _ _ => 0) (1 / 2) (1 / 2) 4 0 0 = 0 :=
  ⟨radon_out_of_bounds_safety.1 (fun _ _ _ => 1) 4 (-1) 0 0 (by push_cast; norm_num),
   radon_out_of_bounds_safety.2.2 (1 / 2) (1 / 2) 4 0 0⟩

/-- C9: for a volume with cells in `[0, 1]`, every trilinear sample taken at
a nonnegative position lies in `[0, 1]`, so every raw pixel is nonnegative,
at most `0.5` times the march-step count, and hence at most `1.4·N + 0.5`. -/
theorem radon_sample_pixel_bounds :
    ∀ vol : VoxelFun, (∀ z y x, 0 ≤ vol z y x ∧ vol z y x ≤ 1) →
      (∀ x y z : ℚ, 0 ≤ x → 0 ≤ y → 0 ≤ z →
        0 ≤ radonInterp vol x y z ∧ radonInterp vol x y z ≤ 1) ∧
      (∀ (c s : ℚ) (size u v : ℕ),
        0 ≤ radonPixel vol c s size u v ∧
        radonPixel vol c s size u v ≤ (marchCount size : ℚ) * (1 / 2) ∧
        radonPixel vol c s size u v ≤ 1.4 * (size : ℚ) + 0.5) := by
  intro vol hv
  refine ⟨fun x y z hx hy hz => radonInterp_bounds hv hx hy hz, fun c s size u v => ?_⟩
  exact ⟨radonPixel_nonneg hv c s size u v, radonPixel_le hv c s size u v,
    le_trans (radonPixel_le hv c s size u v) (marchCount_half_le size)⟩

/-- C9 (witness): instance at the all-zero volume and a concrete pixel. -/
theorem radon_sample_pixel_bounds_witness :
    0 ≤ radonPixel (fun _ _ _ => 0) 1 0 4 0 0 :=
  ((radon_sample_pixel_bounds (fun _ _ _ => 0) (fun _ _ _ => by norm_num)).2 1 0 4 0 0).1

/-- C8: the Normalizer changes only the pixel data, via one rescale of each
projection's grid; the number of projections, their order, and every angle
field are unchanged. -/
theorem normalize_preserves_structure (ps : List Projection) :
    (normalizeProjections ps).length = ps.length ∧
    ∀ k, k < ps.length →
      ((normalizeProjections ps).getD k ⟨0, []⟩).angle = (ps.getD k ⟨0, []⟩).angle ∧
      ((normalizeProjections ps).getD k ⟨0, []⟩).data =
        (ps.getD k ⟨0, []⟩).data.map (fun row => row.map (fun val =>
          ((round (((val - globalMin ps) / rangeOf ps) * 255) : ℤ) : ℚ))) := by
  refine ⟨normalize_length ps, fun k hk => ?_⟩
  rw [normalize_getD hk]
  exact ⟨rfl, rfl⟩

/-- C8 (witness): the angle of a concrete projection survives normalization. -/
theorem normalize_preserves_structure_witness :
    ((normalizeProjections [⟨7, [[1]]⟩]).getD 0 ⟨0, []⟩).angle =
      (([⟨7, [[1]]⟩] : List Projection).getD 0 ⟨0, []⟩).angle :=
  ((normalize_preserves_structure [⟨7, [[1]]⟩]).2 0 (by norm_num)).1

/-- C7: the pipeline attaches angle `i/M · 360` to projection `i`, exactly;
the angle sequence is strictly increasing and starts at 0 (when `M > 0`). -/
theorem projection_angles_exact (dcos dsin : ℚ → ℚ) (size M : ℕ) (vol : VoxelList) :
    (generateProjections dcos dsin size M vol).length = M ∧
    (∀ i, i < M → ((generateProjections dcos dsin size M vol).getD i ⟨0, []⟩).angle =
      ((i : ℚ) / (M : ℚ)) * 360) ∧
    ((generateProjections dcos dsin size M vol).map (fun p => p.angle)).Pairwise (· < ·) ∧
    (0 < M → ((generateProjections dcos dsin size M vol).getD 0 ⟨0, []⟩).angle = 0) := by
  have hlen : (generateProjections dcos dsin size M vol).length = M := by
    show (normalizeProjections _).length = M
    rw [normalize_length, rawProjections_length]
  have hangle : ∀ i, i < M →
      ((generateProjections dcos dsin size M vol).getD i ⟨0, []⟩).angle = projAngle M i := by
    intro i hi
    show ((normalizeProjections _).getD i ⟨0, []⟩).angle = _
    rw [normalize_getD (by rw [rawProjections_length]; exact hi)]
    dsimp only
    rw [rawProjections_getD hi]
  refine ⟨hlen, fun i hi => hangle i hi, ?_, fun hM => ?_⟩
  · have hmap : (generateProjections dcos dsin size M vol).map (fun p => p.angle) =
        (List.range M).map (projAngle M) := by
      show (normalizeProjections _).map _ = _
      rw [normalize_map_angle]
      unfold rawProjections
      rw [List.map_map]
      rfl
    rw [hmap]
    rcases Nat.eq_zero_or_pos M with hM0 | hMpos
    · subst hM0
      simp
    · refine List.Pairwise.map _ ?_ (List.pairwise_lt_range M)
      intro a b hab
      have hMq : (0 : ℚ) < (M : ℚ) := by exact_mod_cast hMpos
      have habq : (a : ℚ) < (b : ℚ) := by exact_mod_cast hab
      unfold projAngle
      have hdiv : (a : ℚ) / (M : ℚ) < (b : ℚ) / (M : ℚ) :=
        div_lt_div_of_pos_right habq hMq
      nlinarith
  · rw [hangle 0 hM]
    unfold projAngle
    push_cast
    norm_num

/-- C7 (witness): projection 1 of a 2-projection run carries angle
`1/2 · 360` (no pixel of the tiny size-1 volume needs to be evaluated). -/
theorem projection_angles_exact_witness :
    ((generateProjections qcos qsin 1 2 [[[0]]]).getD 1 ⟨0, []⟩).angle =
      ((1 : ℚ) / (2 : ℚ)) * 360 :=
  (projection_angles_exact qcos qsin 1 2 [[[0]]]).2.1 1 (by norm_num)

/-- C5 (counterexample): at N = 64, cell `(44, 44, 44)` lies inside the
claim's interval `[round((N - 0.4N)/2), round((N - 0.4N)/2) + 0.4N) =
[19, 44.6)` on every axis, yet the cube model leaves it unoccupied — the
source loops stop at `Math.floor(start + 0.4N) = 44` exclusive. -/
theorem cube_boundary_cell_cex :
    volAt (createTestModelCube 64) 44 44 44 = 0 ∧
    ((round (((64 : ℚ) - (64 : ℚ) * 0.4) / 2) : ℚ) ≤ 44 ∧
      (44 : ℚ) < (round (((64 : ℚ) - (64 : ℚ) * 0.4) / 2) : ℚ) + (64 : ℚ) * 0.4) := by
  have hr : round (((64 : ℚ) - (64 : ℚ) * 0.4) / 2) = 19 := by
    rw [round_eq, show ((64 : ℚ) - (64 : ℚ) * 0.4) / 2 + 1 / 2 = 19.7 from by norm_num,
      Int.floor_eq_iff]
    norm_num
  refine ⟨?_, ?_, ?_⟩
  · rw [volAt_cube]
    unfold cubeFun
    rw [if_neg (by omega)]
  · rw [hr]
    norm_num
  · rw [hr]
    norm_num

/-- C5 (amended): for the cube model at N = 64, cell `(x, y, z)` (read as
`model[z][y][x]`) is occupied iff x, y and z all lie in
`[⌊(N - 0.4N)/2⌋, ⌊(N - 0.4N)/2 + 0.4N⌋) = [19, 44)` — the upper bound is
the floor of `start + 0.4N`, not `round(start) + 0.4N`. -/
theorem cube_occupancy_iff (x y z : ℕ) (hx : x < 64) (hy : y < 64) (hz : z < 64) :
    volAt (createTestModelCube 64) z y x = 1 ↔
      (19 ≤ x ∧ x < 44) ∧ (19 ≤ y ∧ y < 44) ∧ (19 ≤ z ∧ z < 44) := by
  rw [volAt_cube]
  unfold cubeFun
  by_cases h : 19 ≤ z ∧ z < 44 ∧ 19 ≤ y ∧ y < 44 ∧ 19 ≤ x ∧ x < 44
  · rw [if_pos h]
    constructor
    · intro _
      omega
    · intro _
      rfl
  · rw [if_neg h]
    constructor
    · intro h01
      exact absurd h01 (by norm_num)
    · intro hc
      exact absurd (by omega : 19 ≤ z ∧ z < 44 ∧ 19 ≤ y ∧ y < 44 ∧ 19 ≤ x ∧ x < 44) h

/-- C5 (witness): the interior cell `(20, 20, 20)` is occupied. -/
theorem cube_occupancy_iff_witness : volAt (createTestModelCube 64) 20 20 20 = 1 :=
  (cube_occupancy_iff 20 20 20 (by norm_num) (by norm_num) (by norm_num)).2 (by omega)

/-- C3: after normalization of a set with at least two distinct raw values,
0 and 255 are attained and every value lies in `[0, 255]` (so the global min
is 0 and the global max is 255); in the all-equal case every value becomes 0. -/
theorem normalize_min_max_roundtrip (ps : List Projection) :
    ((∃ a ∈ allVals ps, ∃ b ∈ allVals ps, a ≠ b) →
      (0 : ℚ) ∈ allVals (normalizeProjections ps) ∧
      (255 : ℚ) ∈ allVals (normalizeProjections ps) ∧
      ∀ w ∈ allVals (normalizeProjections ps), 0 ≤ w ∧ w ≤ 255) ∧
    ((∀ a ∈ allVals ps, ∀ b ∈ allVals ps, a = b) →
      ∀ w ∈ allVals (normalizeProjections ps), w = 0) := by
  constructor
  · rintro ⟨a, ha, b, hb, hab⟩
    have hne : allVals ps ≠ [] := List.ne_nil_of_mem ha
    have hminmem := globalMin_mem hne
    have hmaxmem := globalMax_mem hne
    have hlt : globalMin ps < globalMax ps := by
      rcases eq_or_lt_of_le
        (le_trans (globalMin_le_of_mem ha) (le_globalMax_of_mem ha)) with he | h
      · exact absurd (by
          linarith [globalMin_le_of_mem ha, le_globalMax_of_mem ha,
            globalMin_le_of_mem hb, le_globalMax_of_mem hb] : a = b) hab
      · exact h
    have hr : rangeOf ps = globalMax ps - globalMin ps := by
      unfold rangeOf
      rw [if_neg (by intro hc; linarith)]
    refine ⟨?_, ?_, normalize_val_bounds ps⟩
    · rw [allVals_normalize]
      refine List.mem_map.2 ⟨globalMin ps, hminmem, ?_⟩
      rw [sub_self, zero_div, zero_mul, round_zero]
      norm_num
    · rw [allVals_normalize]
      refine List.mem_map.2 ⟨globalMax ps, hmaxmem, ?_⟩
      rw [hr, div_self (by linarith), one_mul,
        show (255 : ℚ) = ((255 : ℤ) : ℚ) from by norm_num, round_intCast]
  · intro hall w hw
    rw [allVals_normalize] at hw
    obtain ⟨v, hv, rfl⟩ := List.mem_map.1 hw
    have hne : allVals ps ≠ [] := List.ne_nil_of_mem hv
    have hveq : v = globalMin ps := hall v hv _ (globalMin_mem hne)
    rw [hveq, sub_self, zero_div, zero_mul, round_zero]
    norm_num

/-- C3 (witness): on the set `[{angle 0, data [[0, 2]]}]` the normalized
values attain both 0 and 255. -/
theorem normalize_min_max_roundtrip_witness :
    (0 : ℚ) ∈ allVals (normalizeProjections demoSet) ∧
    (255 : ℚ) ∈ allVals (normalizeProjections demoSet) := by
  have h := (normalize_min_max_roundtrip demoSet).1
    ⟨0, List.mem_cons_self 0 [2], 2,
      List.mem_cons_of_mem 0 (List.mem_cons_self 2 []), by norm_num⟩
  exact ⟨h.1, h.2.1⟩

/-- C2 (counterexample): on a set whose raw values are `{0, 1/10}` the code's
`range = max - min || 1` keeps the fractional range `1/10` (rescaling the top
value to 255), while the claim's formula `range = max(max - min, 1)` would
clamp it to 1 (rescaling the top value to `round(25.5) = 26`); the two
normalizers disagree. -/
theorem normalize_range_formula_cex :
    normalizeProjections cexSet ≠ specNormalizeProjections cexSet := by
  have hvals : allVals cexSet = [0, 1 / 10] := rfl
  have hmin : globalMin cexSet = 0 := by
    unfold globalMin
    rw [hvals]
    show min 0 (1 / 10) = 0
    exact min_eq_left (by norm_num)
  have hmax : globalMax cexSet = 1 / 10 := by
    unfold globalMax
    rw [hvals]
    show max 0 (1 / 10) = 1 / 10
    exact max_eq_right (by norm_num)
  have hrange : rangeOf cexSet = 1 / 10 := by
    unfold rangeOf
    rw [hmin, hmax, sub_zero, if_neg (by norm_num)]
  have hL : ((((normalizeProjections cexSet).getD 0 ⟨0, []⟩).data.getD 0 []).getD 1 0) = 255 := by
    have hstep : ((((normalizeProjections cexSet).getD 0 ⟨0, []⟩).data.getD 0 []).getD 1 0) =
        ((round (((1 / 10 - globalMin cexSet) / rangeOf cexSet) * 255) : ℤ) : ℚ) := rfl
    rw [hstep, hmin, hrange, sub_zero, div_self (by norm_num : (1 / 10 : ℚ) ≠ 0), one_mul,
      show (255 : ℚ) = ((255 : ℤ) : ℚ) from by norm_num, round_intCast]
  have hR : ((((specNormalizeProjections cexSet).getD 0 ⟨0, []⟩).data.getD 0 []).getD 1 0) = 26 := by
    have hstep : ((((specNormalizeProjections cexSet).getD 0 ⟨0, []⟩).data.getD 0 []).getD 1 0) =
        ((round (((1 / 10 - globalMin cexSet) /
          max (globalMax cexSet - globalMin cexSet) 1) * 255) : ℤ) : ℚ) := rfl
    rw [hstep, hmin, hmax, sub_zero,
      show max ((1 : ℚ) / 10) 1 = 1 from max_eq_right (by norm_num), div_one,
      show ((1 : ℚ) / 10) * 255 = 51 / 2 from by norm_num, round_eq,
      show (51 / 2 : ℚ) + 1 / 2 = ((26 : ℤ) : ℚ) from by norm_num, Int.floor_intCast]
    norm_num
  intro h
  have h1 := congrArg
    (fun l : List Projection => ((l.getD 0 ⟨0, []⟩).data.getD 0 []).getD 1 0) h
  dsimp only at h1
  rw [hL, hR] at h1
  norm_num at h1

/-- C2 (amended): the Normalizer computes the true global minimum and maximum
over every pixel and replaces every pixel value by
`round((value - min) / range * 255)`, where `range = max - min` unless that
difference is exactly 0 (the degenerate all-equal case), in which case
`range = 1` — JavaScript `|| 1` replaces only a zero range, it does not clamp
fractional ranges up to 1 the way `max(max - min, 1)` would. -/
theorem normalize_entry_formula (ps : List Projection) :
    (∀ w ∈ allVals ps, globalMin ps ≤ w ∧ w ≤ globalMax ps) ∧
    (allVals ps ≠ [] → globalMin ps ∈ allVals ps ∧ globalMax ps ∈ allVals ps) ∧
    (∀ k i j, k < ps.length → i < (ps.getD k ⟨0, []⟩).data.length →
      j < ((ps.getD k ⟨0, []⟩).data.getD i []).length →
      (((normalizeProjections ps).getD k ⟨0, []⟩).data.getD i []).getD j 0 =
        ((round (((((ps.getD k ⟨0, []⟩).data.getD i []).getD j 0 - globalMin ps) /
          rangeOf ps) * 255) : ℤ) : ℚ)) := by
  refine ⟨fun w hw => ⟨globalMin_le_of_mem hw, le_globalMax_of_mem hw⟩,
    fun hne => ⟨globalMin_mem hne, globalMax_mem hne⟩, ?_⟩
  intro k i j hk hi hj
  rw [normalize_getD hk]
  dsimp only
  set D := (ps.getD k ⟨0, []⟩).data with hD
  rw [List.getD_eq_getElem _ _ hi] at hj
  simp only [List.getD_eq_getElem?_getD, List.getElem?_map, List.getElem?_eq_getElem hi,
    List.getElem?_eq_getElem hj, Option.map_some', Option.getD_some]

/-- C2 (witness): the entry formula at the concrete one-projection set. -/
theorem normalize_entry_formula_witness :
    (((normalizeProjections cexSet).getD 0 ⟨0, []⟩).data.getD 0 []).getD 1 0 =
      ((round (((((cexSet.getD 0 ⟨0, []⟩).data.getD 0 []).getD 1 0 - globalMin cexSet) /
        rangeOf cexSet) * 255) : ℤ) : ℚ) :=
  (normalize_entry_formula cexSet).2.2 0 0 1 (by simp [cexSet]) (by simp [cexSet])
    (by simp [cexSet])

/-- C1 (counterexample): in the end-to-end cube scenario (N = 64, M = 4) the
projection at 0 degrees and the projection at 180 degrees are NOT identical:
at 180 degrees the kernel maps output column `u` to volume column `64 - u`
(not `63 - u`), so the data grids differ at row 30, column 19 — normalized
value at least 1 at 0 degrees versus exactly 0 at 180 degrees. -/
theorem cube_pipeline_0_180_not_identical :
    (cubeRun.getD 0 ⟨0, []⟩).data ≠ (cubeRun.getD 2 ⟨0, []⟩).data := by
  intro h
  have he : (((cubeRun.getD 0 ⟨0, []⟩).data.getD 30 []).getD 19 0) =
      (((cubeRun.getD 2 ⟨0, []⟩).data.getD 30 []).getD 19 0) := by rw [h]
  rw [cubeRun_data_2_30_19_zero] at he
  have hpos := cubeRun_data_0_30_19_pos
  rw [he] at hpos
  linarith

/-- C1 (amended): the end-to-end scenario model=cube, N=64, M=4 produces
exactly 4 Projections at angles 0, 90, 180, 270 (in this order), each a
64×64 grid with every value in `[0, 255]` and at least one pixel value
strictly greater than 0.  (The original claim's further conjunct — that the
0-degree and 180-degree projections are identical — is false on the code;
see the counterexample.) -/
theorem cube_pipeline_end_to_end :
    cubeRun.length = 4 ∧
    cubeRun.map (fun p => p.angle) = [0, 90, 180, 270] ∧
    (∀ p ∈ cubeRun, p.data.length = 64 ∧ ∀ row ∈ p.data, row.length = 64) ∧
    (∀ p ∈ cubeRun, ∀ row ∈ p.data, ∀ w ∈ row, 0 ≤ w ∧ w ≤ 255) ∧
    (∀ p ∈ cubeRun, ∃ row ∈ p.data, ∃ w ∈ row, 0 < w) := by
  refine ⟨cubeRun_length, cubeRun_map_angle, ?_, ?_, ?_⟩
  · intro p hp
    obtain ⟨k, hk, rfl⟩ := List.mem_iff_getElem.1 hp
    have hk4 : k < 4 := by rw [cubeRun_length] at hk; exact hk
    rw [← List.getD_eq_getElem cubeRun ⟨0, []⟩ hk]
    exact cubeRun_data_shape hk4
  · intro p hp row hrow w hw
    exact normalize_val_bounds rawCube w (mem_allVals hp hrow hw)
  · intro p hp
    obtain ⟨k, hk, rfl⟩ := List.mem_iff_getElem.1 hp
    have hk4 : k < 4 := by rw [cubeRun_length] at hk; exact hk
    rw [← List.getD_eq_getElem cubeRun ⟨0, []⟩ hk]
    have hshape := cubeRun_data_shape hk4
    have hrowmem : (cubeRun.getD k ⟨0, []⟩).data.getD 30 [] ∈ (cubeRun.getD k ⟨0, []⟩).data :=
      getD_mem ([] : List ℚ) (by rw [hshape.1]; norm_num)
    have hrowlen : ((cubeRun.getD k ⟨0, []⟩).data.getD 30 []).length = 64 :=
      hshape.2 _ hrowmem
    have hwmem : ((cubeRun.getD k ⟨0, []⟩).data.getD 30 []).getD 30 0 ∈
        (cubeRun.getD k ⟨0, []⟩).data.getD 30 [] :=
      getD_mem (0 : ℚ) (by rw [hrowlen]; norm_num)
    refine ⟨_, hrowmem, _, hwmem, ?_⟩
    have := cubeRun_data_30_30_pos hk4
    linarith

/-- C1 (witness): the first projection of the cube run is a 64-row grid. -/
theorem cube_pipeline_end_to_end_witness :
    (cubeRun.getD 0 ⟨0, []⟩).data.length = 64 :=
  (cube_pipeline_end_to_end.2.2.1 (cubeRun.getD 0 ⟨0, []⟩)
    (getD_mem ⟨0, []⟩ (by rw [cubeRun_length]; norm_num))).1
